import Mathlib

/-!
# Verification of the `reptool` CSV merge engine

A shallow embedding of `src/main.ts` (Deno/TypeScript).  JavaScript strings
are modelled as `List Char`; a JavaScript value that may be `undefined`
(out-of-bounds index, missing map entry) is modelled with `Option`; a code
path that throws a `TypeError` (e.g. calling a method on `undefined`) or
exits the process is modelled by an operation returning `none`.

The external collaborators (filesystem, `Date` parsing) are parameters:
a directory listing is a `List FileEntry` whose `content` is the text the
runtime would read, and the ECMAScript `new Date(s).getTime()` parser is an
abstract `pd : List Char → Option Int` (`none` models `NaN`).

The ECMAScript `Array.prototype.sort` is required to be stable; it is
modelled here by a stable insertion sort threaded through `Option`
(a comparator call that throws aborts the whole sort).
-/

namespace Reptool

/-- JavaScript `String.prototype.split(sep)` for a one-character separator:
always returns at least one (possibly empty) piece. -/
def splitOnChar (sep : Char) : List Char → List (List Char)
  | [] => [[]]
  | c :: rest =>
    if c = sep then [] :: splitOnChar sep rest
    else
      match splitOnChar sep rest with
      | [] => [[c]]
      | f :: fs => (c :: f) :: fs

/-- JavaScript `String.prototype.includes(needle)`: substring containment. -/
def containsSub (needle : List Char) : List Char → Bool
  | [] => needle.isEmpty
  | c :: rest => needle.isPrefixOf (c :: rest) || containsSub needle rest

/-- JavaScript `Array.prototype.indexOf`, returning `none` for `-1`. -/
def indexOf? (a : List Char) : List (List Char) → Option Nat
  | [] => none
  | x :: xs => if x = a then some 0 else (indexOf? a xs).map (· + 1)

/-- The scan loop of `splitCSVLine` (src/main.ts:82-112): `acc` is the
`field` accumulator, the `Bool` is the `inQuotes` flag, and the patterns
are, in the source's order of tests: escaped quote (a `"` in quotes
followed by another `"`), quote toggle, field-separating comma outside
quotes, and any other character. -/
def splitCSVAux : List Char → Bool → List Char → List (List Char)
  | acc, _, [] => [acc]
  | acc, true, '"' :: '"' :: rest => splitCSVAux (acc ++ ['"']) true rest
  | acc, inQ, '"' :: rest => splitCSVAux acc (!inQ) rest
  | acc, false, ',' :: rest => acc :: splitCSVAux [] false rest
  | acc, inQ, c :: rest => splitCSVAux (acc ++ [c]) inQ rest

/-- `splitCSVLine` (src/main.ts:82-112): quote-aware split of one CSV line.
Total — the source never throws here, unbalanced quotes are accepted. -/
def splitCSVLine (line : List Char) : List (List Char) :=
  splitCSVAux [] false line

/-- The `Report` interface (src/main.ts:18-21). -/
structure Report where
  data : List Char
  pathname : List Char
deriving DecidableEq, Repr

/-- One entry of the external directory listing (`Deno.readDirSync`),
with the text `Deno.readTextFile` would return for it. -/
structure FileEntry where
  name : List Char
  isFile : Bool
  content : List Char
deriving DecidableEq, Repr

/-- `checkInDateHeader` (src/main.ts:227). -/
def checkInDateHeader : List Char := "Check-In Date".toList

/-- `OUTFILE` (src/main.ts:5). -/
def OUTFILE : List Char := "MERGED.csv".toList

/-- First line of a report's text: `data.split("\n")[0]`
(`split` always returns at least one piece). -/
def firstLine (data : List Char) : List Char :=
  (splitOnChar '\n' data).headD []

/-- The data lines of a report's text: everything after the first line. -/
def dataLines (data : List Char) : List (List Char) :=
  (splitOnChar '\n' data).tail

/-- The comparator passed to `inputReports.sort` (src/main.ts:119-155).
`pd` models `new Date(s).getTime()` (`none` = `NaN`).  `none` as a result
models a thrown `TypeError`: the source reads `dataA[0]` / `dataB[0]` and
passes them to `splitCSVLine` *before* checking the column indices, and
reads the date fields before checking them, so a report with no second
line, or a first data row shorter than its column index, crashes. -/
def compareReports (pd : List Char → Option Int) (a b : Report) : Option Int :=
  let headerAFields := splitOnChar ',' (firstLine a.data)
  let headerBFields := splitOnChar ',' (firstLine b.data)
  match (dataLines a.data).head?, (dataLines b.data).head? with
  | some rowA, some rowB =>
    let dataAFirstRecordFields := splitCSVLine rowA
    let dataBFirstRecordFields := splitCSVLine rowB
    match indexOf? checkInDateHeader headerAFields,
          indexOf? checkInDateHeader headerBFields with
    | some locationA, some locationB =>
      match dataAFirstRecordFields[locationA]?,
            dataBFirstRecordFields[locationB]? with
      | some dA, some dB =>
        let dateA := dA.filter (· ≠ '"')
        let dateB := dB.filter (· ≠ '"')
        match pd dateA, pd dateB with
        | some timeA, some timeB => some (timeB - timeA)
        | _, _ => some 0
      | _, _ => none
    | _, _ => some 0
  | _, _ => none

/-- Insert one element into an already-processed list using a comparator
that may throw: `x` is placed before the first element `y` with
`c x y < 0`, after every element it compares `0` or positive to —
exactly the placement a stable sort gives the later-arriving element. -/
def insertCmpM (c : α → α → Option Int) (x : α) : List α → Option (List α)
  | [] => some [x]
  | y :: ys =>
    match c x y with
    | none => none
    | some v =>
      if v < 0 then some (x :: y :: ys)
      else
        match insertCmpM c x ys with
        | none => none
        | some zs => some (y :: zs)

/-- Left fold of `insertCmpM` over the input: a stable insertion sort in
`Option` (any comparator throw aborts, modelling the exception escaping
`Array.prototype.sort`). -/
def sortFold (c : α → α → Option Int) : List α → List α → Option (List α)
  | acc, [] => some acc
  | acc, x :: xs =>
    match insertCmpM c x acc with
    | none => none
    | some acc2 => sortFold c acc2 xs

/-- `sortReportsByDate` (src/main.ts:115-156): the in-place
`inputReports.sort(...)` modelled as a stable sort returning the reordered
list (ECMAScript requires `Array.prototype.sort` to be stable). -/
def sortReportsByDate (pd : List Char → Option Int) (inputReports : List Report) :
    Option (List Report) :=
  sortFold (compareReports pd) [] inputReports

/-- Modelled from the spec (§4.1): the reference left-to-right scan,
written rule by rule in the spec's order — enter quoted mode, escaped
quote, exit quoted mode, separator comma, ordinary character, and the
unconditional final append.  Used to state C3. -/
def splitSpecAux : List Char → Bool → List Char → List (List Char)
  | acc, false, '"' :: rest => splitSpecAux acc true rest
  | acc, true, '"' :: '"' :: rest => splitSpecAux (acc ++ ['"']) true rest
  | acc, true, '"' :: rest => splitSpecAux acc false rest
  | acc, false, ',' :: rest => acc :: splitSpecAux [] false rest
  | acc, inQ, c :: rest => splitSpecAux (acc ++ [c]) inQ rest
  | acc, _, [] => [acc]

/-- The spec's CSV scan, starting with an empty field outside quotes. -/
def splitCSVLineSpec (line : List Char) : List (List Char) :=
  splitSpecAux [] false line

/-- Association-list model of the `inputFieldTranslationMap` `Map`
(src/main.ts:171-179): built by iterating the reference header fields and
recording, for each field found in this report's header, its first index
there.  For a key set twice (a duplicated reference field) both insertions
carry the same `indexOf` value, so first-match lookup agrees with the
`Map`'s overwrite semantics. -/
def inputFieldTranslationMap (inputHeaderRecordFields : List (List Char)) :
    List (List Char) → List (List Char × Nat)
  | [] => []
  | f :: fs =>
    match indexOf? f inputHeaderRecordFields with
    | some loc => (f, loc) :: inputFieldTranslationMap inputHeaderRecordFields fs
    | none => inputFieldTranslationMap inputHeaderRecordFields fs

/-- `Map.prototype.get`: first-match association lookup. -/
def mapGet (m : List (List Char × Nat)) (k : List Char) : Option Nat :=
  match m with
  | [] => none
  | (k', v) :: rest => if k' = k then some v else mapGet rest k

/-- The per-field output encoding of the translator (src/main.ts:192-195):
a field containing a comma is wrapped in double quotes, any other field is
emitted unchanged (no escaping of embedded quotes). -/
def encodeField (field : List Char) : List Char :=
  if ',' ∈ field then '"' :: (field ++ ['"']) else field

/-- The inner `forEach` over `derivedReferenceHeaderFields`
(src/main.ts:189-200), building `newRecord` left to right: a mapped field
is looked up in the parsed record (`none` models the `TypeError` thrown by
`field.includes` when the row is shorter than the mapped index), encoded,
and appended; every iteration appends a comma, mapped or not. -/
def transFold (tm : List (List Char × Nat)) (recordFields : List (List Char))
    (newRecord : List Char) : List (List Char) → Option (List Char)
  | [] => some newRecord
  | f :: fs =>
    match mapGet tm f with
    | some loc =>
      match recordFields[loc]? with
      | some field => transFold tm recordFields (newRecord ++ encodeField field ++ [',']) fs
      | none => none
    | none => transFold tm recordFields (newRecord ++ [',']) fs

/-- Translation of one data record onto the reference schema
(src/main.ts:183-204, the per-record body). -/
def translateRecord (derivedReferenceHeaderFields inputHeaderRecordFields : List (List Char))
    (inputDataRecord : List Char) : Option (List Char) :=
  transFold (inputFieldTranslationMap inputHeaderRecordFields derivedReferenceHeaderFields)
    (splitCSVLine inputDataRecord) [] derivedReferenceHeaderFields

/-- The `inputDataRecords.forEach` loop (src/main.ts:183-205): truly empty
lines are skipped (`if (inputDataRecord)`), each translated record is
pushed onto the merged report. -/
def populateRows (derivedReferenceHeaderFields inputHeaderRecordFields : List (List Char))
    (mergedReport : List (List Char)) : List (List Char) → Option (List (List Char))
  | [] => some mergedReport
  | rec :: recs =>
    if rec.isEmpty then
      populateRows derivedReferenceHeaderFields inputHeaderRecordFields mergedReport recs
    else
      match translateRecord derivedReferenceHeaderFields inputHeaderRecordFields rec with
      | some newRecord =>
        populateRows derivedReferenceHeaderFields inputHeaderRecordFields
          (mergedReport ++ [newRecord]) recs
      | none => none

/-- `populateMergedReport` (src/main.ts:159-213): for each input report in
order, split its text into lines, take its own header fields, and append
the translation of every non-empty data line to the merged report. -/
def populateMergedReport (derivedReferenceHeaderFields : List (List Char))
    (mergedReport : List (List Char)) : List Report → Option (List (List Char))
  | [] => some mergedReport
  | rep :: reps =>
    let inputHeaderRecordFields := splitOnChar ',' (firstLine rep.data)
    match populateRows derivedReferenceHeaderFields inputHeaderRecordFields
        mergedReport (dataLines rep.data) with
    | some merged2 => populateMergedReport derivedReferenceHeaderFields merged2 reps
    | none => none

/-- The input-file selection of `cmdMerge` (src/main.ts:231-236): regular
files whose name contains `.csv` and does not contain `MERGED.csv`
(both substring tests, via `String.prototype.includes`). -/
def inputFileFilter (e : FileEntry) : Bool :=
  e.isFile && containsSub ".csv".toList e.name && !containsSub OUTFILE e.name

/-- The header validity test of the report loader (src/main.ts:264):
the first line, split on commas, contains the token `Check-In Date`. -/
def hasValidHeader (data : List Char) : Bool :=
  (splitOnChar ',' (firstLine data)).contains checkInDateHeader

/-- The qualifying reports of a directory listing (src/main.ts:231-267):
candidate files read into `Report`s, keeping only those with a valid
header (the others are warned about and skipped, never fatal). -/
def inputReportsOf (entries : List FileEntry) : List Report :=
  ((entries.filter inputFileFilter).map
      (fun e => { data := e.content, pathname := e.name : Report })).filter
    (fun r => hasValidHeader r.data)

/-- `cmdMerge` (src/main.ts:216-304) after the directory check, with the
directory listing and file contents supplied by `entries`: `none` models
any abort before the output write (the explicit `Deno.exit(1)` on an empty
candidate list, or an exception reaching `main`'s catch — both end the
process with exit code 1 and no `MERGED.csv` written).  `some lines`
models the merged report handed to `Deno.writeTextFile`. -/
def cmdMerge (entries : List FileEntry) (pd : List Char → Option Int) :
    Option (List (List Char)) :=
  let inputFileList := entries.filter inputFileFilter
  if inputFileList.isEmpty then none
  else
    let inputReports := inputReportsOf entries
    match sortReportsByDate pd inputReports with
    | none => none
    | some sortedReports =>
      match sortedReports.head? with
      | none => none
      | some firstReport =>
        let derivedReferenceHeader := firstLine firstReport.data
        let derivedReferenceHeaderFields := splitOnChar ',' derivedReferenceHeader
        if derivedReferenceHeaderFields.isEmpty then none
        else
          populateMergedReport derivedReferenceHeaderFields
            [derivedReferenceHeader] sortedReports

/-- The process exit code of a merge run (src/main.ts:247-251, 320-338):
`1` on any abort, `0` on success. -/
def mergeExitCode (entries : List FileEntry) (pd : List Char → Option Int) : Nat :=
  if (cmdMerge entries pd).isSome then 0 else 1

/-- The text written to `MERGED.csv`, if any (src/main.ts:299:
`mergedReport.join("\n")`, only reached on success). -/
def writtenOutput (entries : List FileEntry) (pd : List Char → Option Int) :
    Option (List Char) :=
  (cmdMerge entries pd).map (fun lines => (List.intersperse ['\n'] lines).flatten)

/-- The date string the comparator extracts from one report (its own
header's `Check-In Date` index, read in the first data row, quotes
stripped); `none` when any step has nothing to read. -/
def reportDate (r : Report) : Option (List Char) :=
  match (dataLines r.data).head? with
  | none => none
  | some row =>
    match indexOf? checkInDateHeader (splitOnChar ',' (firstLine r.data)) with
    | none => none
    | some loc =>
      match (splitCSVLine row)[loc]? with
      | none => none
      | some d => some (d.filter (· ≠ '"'))

/-- The parsed timestamp of a report under the abstract date parser. -/
def reportTime (pd : List Char → Option Int) (r : Report) : Option Int :=
  (reportDate r).bind pd

/-- The timestamp with default `0`, used as sort key once `reportTime` is
known to be `some`. -/
def timeKey (pd : List Char → Option Int) (r : Report) : Int :=
  (reportTime pd r).getD 0

/-- The contents each slot of a translated record receives, in reference
schema order: the source field for a mapped name, the empty field for an
unmapped one; `none` models the out-of-bounds `TypeError`. -/
def slotsM (tm : List (List Char × Nat)) (recordFields : List (List Char)) :
    List (List Char) → Option (List (List Char))
  | [] => some []
  | f :: fs =>
    match mapGet tm f with
    | some loc =>
      match recordFields[loc]? with
      | some field => (slotsM tm recordFields fs).map (field :: ·)
      | none => none
    | none => (slotsM tm recordFields fs).map (([] : List Char) :: ·)

/-- Serialisation of slot contents: each slot encoded and followed by a
comma — including the last. -/
def encodeAll (slots : List (List Char)) : List Char :=
  (slots.map (fun s => encodeField s ++ [','])).flatten

/-- Modelled from the spec (§4.4, step 2): the translated rows of one
report, stated as a direct map over its non-empty data lines — the clean
form C9 compares the accumulator-style `populateMergedReport` against. -/
def translatedRows (derivedReferenceHeaderFields inputHeaderRecordFields : List (List Char)) :
    List (List Char) → Option (List (List Char))
  | [] => some []
  | rec :: recs =>
    if rec.isEmpty then
      translatedRows derivedReferenceHeaderFields inputHeaderRecordFields recs
    else
      match translateRecord derivedReferenceHeaderFields inputHeaderRecordFields rec with
      | some newRecord =>
        (translatedRows derivedReferenceHeaderFields inputHeaderRecordFields recs).map
          (newRecord :: ·)
      | none => none

/-- Modelled from the spec (§4.4): per-report translated rows, every
report against the single reference schema but its own header. -/
def reportRows (derivedReferenceHeaderFields : List (List Char)) (rep : Report) :
    Option (List (List Char)) :=
  translatedRows derivedReferenceHeaderFields (splitOnChar ',' (firstLine rep.data))
    (dataLines rep.data)

/-- Modelled from the spec (§3 Merged Output): the rows of all reports in
the given (sorted) order, concatenated. -/
def allReportsRows (derivedReferenceHeaderFields : List (List Char)) :
    List Report → Option (List (List Char))
  | [] => some []
  | rep :: reps =>
    match reportRows derivedReferenceHeaderFields rep with
    | none => none
    | some rows =>
      (allReportsRows derivedReferenceHeaderFields reps).map (rows ++ ·)

/-- Sortedness by descending key: each element's key dominates all later
ones. -/
def SortedDesc (k : α → Int) (l : List α) : Prop :=
  l.Pairwise (fun a b => k b ≤ k a)

/-- The precondition under which C10 asserts comparator totality: the
report's text has a second newline-separated line, and whenever its own
header yields a recency-column index, the first data row has a field
there. -/
def compareSafe (r : Report) : Prop :=
  (dataLines r.data) ≠ [] ∧
  ∀ loc, indexOf? checkInDateHeader (splitOnChar ',' (firstLine r.data)) = some loc →
    loc < (splitCSVLine ((dataLines r.data).headD [])).length

end Reptool

namespace Reptool

/-! ## Basic facts about the string model -/

theorem splitOnChar_ne_nil (sep : Char) (l : List Char) : splitOnChar sep l ≠ [] := by
  induction l with
  | nil => simp [splitOnChar]
  | cons c rest ih =>
    simp only [splitOnChar]
    split
    · simp
    · split
      · simp
      · simp

theorem splitOnChar_append_sep (sep : Char) (l : List Char) :
    splitOnChar sep (l ++ [sep]) = splitOnChar sep l ++ [[]] := by
  induction l with
  | nil => simp [splitOnChar]
  | cons c rest ih =>
    by_cases hc : c = sep
    · subst hc
      simp [splitOnChar, ih]
    · obtain ⟨f, fs, hsplit⟩ : ∃ f fs, splitOnChar sep rest = f :: fs := by
        cases h : splitOnChar sep rest with
        | nil => exact absurd h (splitOnChar_ne_nil sep rest)
        | cons f fs => exact ⟨f, fs, rfl⟩
      simp only [List.cons_append, splitOnChar, hc, if_false, List.append_eq]
      rw [ih, hsplit]
      simp

/-! ## The translation map -/

theorem mapGet_inputFieldTranslationMap (hdr : List (List Char)) (fs : List (List Char))
    (f : List Char) :
    mapGet (inputFieldTranslationMap hdr fs) f =
      if f ∈ fs then indexOf? f hdr else none := by
  induction fs with
  | nil => simp [inputFieldTranslationMap, mapGet]
  | cons g gs ih =>
    by_cases hgf : g = f
    · subst hgf
      cases hidx : indexOf? g hdr with
      | none =>
        simp only [inputFieldTranslationMap, hidx, ih]
        by_cases hmem : g ∈ gs <;> simp [hmem, hidx]
      | some loc => simp [inputFieldTranslationMap, hidx, mapGet]
    · have hfg : f ≠ g := fun h => hgf h.symm
      cases hidx : indexOf? g hdr with
      | none =>
        simp only [inputFieldTranslationMap, hidx, ih]
        simp [List.mem_cons, hfg]
      | some loc =>
        simp only [inputFieldTranslationMap, hidx, mapGet, if_neg hgf, ih]
        simp [List.mem_cons, hfg]

/-! ## The translator as slot contents -/

theorem transFold_eq_slotsM (tm : List (List Char × Nat)) (rec : List (List Char))
    (fs : List (List Char)) : ∀ acc,
    transFold tm rec acc fs = (slotsM tm rec fs).map (fun cs => acc ++ encodeAll cs) := by
  induction fs with
  | nil => intro acc; simp [transFold, slotsM, encodeAll]
  | cons f fs ih =>
    intro acc
    cases hget : mapGet tm f with
    | some loc =>
      cases hrec : rec[loc]? with
      | some field =>
        simp only [transFold, hget, hrec, slotsM, ih]
        cases slotsM tm rec fs with
        | none => rfl
        | some cs => simp [encodeAll]
      | none => simp [transFold, hget, hrec, slotsM]
    | none =>
      simp only [transFold, hget, slotsM, ih]
      cases slotsM tm rec fs with
      | none => rfl
      | some cs => simp [encodeAll, encodeField]

theorem translateRecord_slots (rf hdr : List (List Char)) (rec : List Char) (out : List Char)
    (hout : translateRecord rf hdr rec = some out) :
    ∃ cs, slotsM (inputFieldTranslationMap hdr rf) (splitCSVLine rec) rf = some cs ∧
      out = encodeAll cs := by
  rw [translateRecord, transFold_eq_slotsM] at hout
  cases hcs : slotsM (inputFieldTranslationMap hdr rf) (splitCSVLine rec) rf with
  | none => rw [hcs] at hout; simp at hout
  | some cs =>
    rw [hcs] at hout
    simp at hout
    exact ⟨cs, rfl, hout.symm⟩

theorem slotsM_length (tm : List (List Char × Nat)) (rec : List (List Char)) :
    ∀ fs cs, slotsM tm rec fs = some cs → cs.length = fs.length := by
  intro fs
  induction fs with
  | nil => intro cs h; simp [slotsM] at h; simp [← h]
  | cons f fs ih =>
    intro cs h
    cases hget : mapGet tm f with
    | some loc =>
      cases hrec : rec[loc]? with
      | some field =>
        cases hcs : slotsM tm rec fs with
        | none => simp [slotsM, hget, hrec, hcs] at h
        | some cs' =>
          simp [slotsM, hget, hrec, hcs] at h
          simp [← h, ih cs' hcs]
      | none => simp [slotsM, hget, hrec] at h
    | none =>
      cases hcs : slotsM tm rec fs with
      | none => simp [slotsM, hget, hcs] at h
      | some cs' =>
        simp [slotsM, hget, hcs] at h
        simp [← h, ih cs' hcs]

theorem slotsM_mem (tm : List (List Char × Nat)) (rec : List (List Char)) :
    ∀ fs cs, slotsM tm rec fs = some cs → ∀ c ∈ cs, c = [] ∨ c ∈ rec := by
  intro fs
  induction fs with
  | nil => intro cs h; simp [slotsM] at h; subst h; simp
  | cons f fs ih =>
    intro cs h c hc
    cases hget : mapGet tm f with
    | some loc =>
      cases hrec : rec[loc]? with
      | some field =>
        cases hcs : slotsM tm rec fs with
        | none => simp [slotsM, hget, hrec, hcs] at h
        | some cs' =>
          simp [slotsM, hget, hrec, hcs] at h
          subst h
          rcases List.mem_cons.mp hc with hceq | hctail
          · subst hceq
            right
            obtain ⟨hlt, rfl⟩ := List.getElem?_eq_some_iff.mp hrec
            exact List.getElem_mem hlt
          · exact ih cs' hcs c hctail
      | none => simp [slotsM, hget, hrec] at h
    | none =>
      cases hcs : slotsM tm rec fs with
      | none => simp [slotsM, hget, hcs] at h
      | some cs' =>
        simp [slotsM, hget, hcs] at h
        subst h
        rcases List.mem_cons.mp hc with hceq | hctail
        · left; exact hceq
        · exact ih cs' hcs c hctail

theorem splitCSVAux_eq_spec (acc : List Char) (inQ : Bool) (l : List Char) :
    splitCSVAux acc inQ l = splitSpecAux acc inQ l := by
  induction acc, inQ, l using splitCSVAux.induct
  case case3 acc inQ rest x ih =>
    cases inQ with
    | false => simpa [splitCSVAux, splitSpecAux] using ih
    | true =>
      cases rest with
      | nil => simp [splitCSVAux, splitSpecAux]
      | cons c rs =>
        have hc : c ≠ '"' := fun h => x rs rfl (by simp [h])
        simp_all [splitCSVAux, splitSpecAux, hc]
  all_goals simp_all [splitCSVAux, splitSpecAux]

/-! ## Scanning an emitted record -/

theorem scan_unquoted (f : List Char) (hq : '"' ∉ f) (hc : ',' ∉ f) :
    ∀ acc rest, splitCSVAux acc false (f ++ ',' :: rest) =
      (acc ++ f) :: splitCSVAux [] false rest := by
  induction f with
  | nil => intro acc rest; simp [splitCSVAux]
  | cons c cs ih =>
    intro acc rest
    have hcq : c ≠ '"' := fun h => hq (h ▸ List.mem_cons_self c cs)
    have hcc : c ≠ ',' := fun h => hc (h ▸ List.mem_cons_self c cs)
    have ih' := ih (fun h => hq (List.mem_cons_of_mem c h))
      (fun h => hc (List.mem_cons_of_mem c h)) (acc ++ [c]) rest
    simp only [List.cons_append]
    rw [show splitCSVAux acc false (c :: (cs ++ ',' :: rest)) =
        splitCSVAux (acc ++ [c]) false (cs ++ ',' :: rest) from by
      simp [splitCSVAux, hcq, hcc]]
    rw [ih']
    simp

theorem scan_inq (f : List Char) (hq : '"' ∉ f) :
    ∀ acc rest, splitCSVAux acc true (f ++ ('"' :: ',' :: rest)) =
      (acc ++ f) :: splitCSVAux [] false rest := by
  induction f with
  | nil => intro acc rest; simp [splitCSVAux]
  | cons c cs ih =>
    intro acc rest
    have hcq : c ≠ '"' := fun h => hq (h ▸ List.mem_cons_self c cs)
    have ih' := ih (fun h => hq (List.mem_cons_of_mem c h)) (acc ++ [c]) rest
    simp only [List.cons_append]
    rw [show splitCSVAux acc true (c :: (cs ++ '"' :: ',' :: rest)) =
        splitCSVAux (acc ++ [c]) true (cs ++ '"' :: ',' :: rest) from by
      simp [splitCSVAux, hcq]]
    rw [ih']
    simp

theorem scan_encodeField (f : List Char) (hq : '"' ∉ f) (acc rest : List Char) :
    splitCSVAux acc false (encodeField f ++ ',' :: rest) =
      (acc ++ f) :: splitCSVAux [] false rest := by
  by_cases hc : ',' ∈ f
  · rw [encodeField, if_pos hc]
    rw [show ('"' :: (f ++ ['"'])) ++ ',' :: rest = '"' :: (f ++ ('"' :: ',' :: rest)) from by
      simp]
    rw [show splitCSVAux acc false ('"' :: (f ++ ('"' :: ',' :: rest))) =
        splitCSVAux acc true (f ++ ('"' :: ',' :: rest)) from by
      cases f with
      | nil => rfl
      | cons c cs =>
        have hcq : c ≠ '"' := fun h => hq (h ▸ List.mem_cons_self c cs)
        simp [splitCSVAux, hcq]]
    exact scan_inq f hq acc rest
  · rw [encodeField, if_neg hc]
    exact scan_unquoted f hq hc acc rest

theorem encodeAll_cons (c : List Char) (cs : List (List Char)) :
    encodeAll (c :: cs) = encodeField c ++ (',' :: encodeAll cs) := by
  simp [encodeAll]

theorem scan_encodeAll (cs : List (List Char)) (hq : ∀ c ∈ cs, '"' ∉ c) :
    splitCSVAux [] false (encodeAll cs) = cs ++ [[]] := by
  induction cs with
  | nil => simp [encodeAll, splitCSVAux]
  | cons c cs ih =>
    rw [encodeAll_cons, scan_encodeField c (hq c (List.mem_cons_self c cs)) [] (encodeAll cs)]
    rw [ih (fun x hx => hq x (List.mem_cons_of_mem c hx))]
    simp

theorem encodeAll_ends_comma (cs : List (List Char)) (h : cs ≠ []) :
    ∃ pre, encodeAll cs = pre ++ [','] := by
  induction cs with
  | nil => exact absurd rfl h
  | cons c cs ih =>
    cases cs with
    | nil => exact ⟨encodeField c, by simp [encodeAll]⟩
    | cons c' cs' =>
      obtain ⟨pre, hpre⟩ := ih (by simp)
      exact ⟨encodeField c ++ ',' :: pre, by rw [encodeAll_cons, hpre]; simp⟩

/-! ## The stable sort -/

theorem insertCmpM_all_zero (c : α → α → Option Int) (x : α) :
    ∀ acc, (∀ y ∈ acc, c x y = some 0) → insertCmpM c x acc = some (acc ++ [x]) := by
  intro acc
  induction acc with
  | nil => intro _; rfl
  | cons y ys ih =>
    intro h
    have hy := h y (List.mem_cons_self y ys)
    simp only [insertCmpM, hy]
    rw [ih (fun z hz => h z (List.mem_cons_of_mem y hz))]
    norm_num

theorem sortFold_all_zero (c : α → α → Option Int) :
    ∀ (l acc : List α), (∀ x ∈ l, ∀ y, y ∈ acc ∨ y ∈ l → c x y = some 0) →
      sortFold c acc l = some (acc ++ l) := by
  intro l
  induction l with
  | nil => intro acc _; simp [sortFold]
  | cons x xs ih =>
    intro acc h
    have hx : insertCmpM c x acc = some (acc ++ [x]) :=
      insertCmpM_all_zero c x acc
        (fun y hy => h x (List.mem_cons_self x xs) y (Or.inl hy))
    simp only [sortFold, hx]
    rw [ih (acc ++ [x])]
    · simp
    · intro x' hx' y hy
      refine h x' (List.mem_cons_of_mem x hx') y ?_
      rcases hy with hy | hy
      · rcases List.mem_append.mp hy with hy | hy
        · exact Or.inl hy
        · simp at hy
          subst hy
          exact Or.inr (List.mem_cons_self y xs)
      · exact Or.inr (List.mem_cons_of_mem x hy)

theorem insertCmpM_key (c : α → α → Option Int) (k : α → Int) (x : α) :
    ∀ ys, (∀ y ∈ ys, c x y = some (k y - k x)) → SortedDesc k ys →
      ∃ zs, insertCmpM c x ys = some zs ∧ zs.Perm (x :: ys) ∧ SortedDesc k zs := by
  intro ys
  induction ys with
  | nil =>
    intro _ _
    exact ⟨[x], rfl, List.Perm.refl _, List.pairwise_singleton _ _⟩
  | cons y ys ih =>
    intro h hs
    obtain ⟨hy, hys⟩ := List.pairwise_cons.mp hs
    have hcy := h y (List.mem_cons_self y ys)
    by_cases hlt : k y - k x < 0
    · refine ⟨x :: y :: ys, ?_, List.Perm.refl _, ?_⟩
      · simp [insertCmpM, hcy, hlt]
      · refine List.pairwise_cons.mpr ⟨?_, hs⟩
        intro z hz
        rcases List.mem_cons.mp hz with hz | hz
        · subst hz; omega
        · have := hy z hz; omega
    · obtain ⟨zs, hzs, hperm, hsorted⟩ :=
        ih (fun z hz => h z (List.mem_cons_of_mem y hz)) hys
      refine ⟨y :: zs, ?_, ?_, ?_⟩
      · simp [insertCmpM, hcy, hlt, hzs]
      · exact (hperm.cons y).trans (List.Perm.swap x y ys)
      · refine List.pairwise_cons.mpr ⟨?_, hsorted⟩
        intro z hz
        have hz' : z ∈ x :: ys := hperm.mem_iff.mp hz
        rcases List.mem_cons.mp hz' with hz' | hz'
        · subst hz'; omega
        · exact hy z hz'

theorem sortFold_key (c : α → α → Option Int) (k : α → Int) :
    ∀ (l acc : List α), (∀ x ∈ l, ∀ y, y ∈ acc ∨ y ∈ l → c x y = some (k y - k x)) →
      SortedDesc k acc →
      ∃ m, sortFold c acc l = some m ∧ m.Perm (acc ++ l) ∧ SortedDesc k m := by
  intro l
  induction l with
  | nil =>
    intro acc _ hacc
    exact ⟨acc, rfl, by simp, hacc⟩
  | cons x xs ih =>
    intro acc h hacc
    obtain ⟨zs, hzs, hperm, hsorted⟩ :=
      insertCmpM_key c k x acc
        (fun y hy => h x (List.mem_cons_self x xs) y (Or.inl hy)) hacc
    simp only [sortFold, hzs]
    have hsub : ∀ x' ∈ xs, ∀ y, y ∈ zs ∨ y ∈ xs → c x' y = some (k y - k x') := by
      intro x' hx' y hy
      refine h x' (List.mem_cons_of_mem x hx') y ?_
      rcases hy with hy | hy
      · have hyz : y ∈ x :: acc := hperm.mem_iff.mp hy
        rcases List.mem_cons.mp hyz with hy' | hy'
        · subst hy'; exact Or.inr (List.mem_cons_self y xs)
        · exact Or.inl hy'
      · exact Or.inr (List.mem_cons_of_mem x hy)
    obtain ⟨m, hm, hmperm, hmsorted⟩ := ih zs hsub hsorted
    refine ⟨m, hm, ?_, hmsorted⟩
    refine hmperm.trans ?_
    have h1 : (zs ++ xs).Perm (x :: (acc ++ xs)) := hperm.append_right xs
    exact h1.trans List.perm_middle.symm

theorem sortedDesc_head_max (k : α → Int) (h : α) (t : List α)
    (hs : SortedDesc k (h :: t)) : ∀ x ∈ h :: t, k x ≤ k h := by
  intro x hx
  rcases List.mem_cons.mp hx with hx | hx
  · subst hx; exact le_refl _
  · exact (List.pairwise_cons.mp hs).1 x hx

/-! ## The comparator -/

theorem reportDate_inv (r : Report) (d : List Char) (h : reportDate r = some d) :
    ∃ row loc f, (dataLines r.data).head? = some row ∧
      indexOf? checkInDateHeader (splitOnChar ',' (firstLine r.data)) = some loc ∧
      (splitCSVLine row)[loc]? = some f ∧ d = f.filter (· ≠ '"') := by
  cases hrow : (dataLines r.data).head? with
  | none => simp [reportDate, hrow] at h
  | some row =>
    cases hloc : indexOf? checkInDateHeader (splitOnChar ',' (firstLine r.data)) with
    | none => simp [reportDate, hrow, hloc] at h
    | some loc =>
      cases hf : (splitCSVLine row)[loc]? with
      | none => simp [reportDate, hrow, hloc, hf] at h
      | some f =>
        simp only [reportDate, hrow, hloc, hf, Option.some.injEq] at h
        exact ⟨row, loc, f, rfl, rfl, hf, h.symm⟩

theorem compareReports_missing_col (pd : List Char → Option Int) (a b : Report)
    (ha : dataLines a.data ≠ []) (hb : dataLines b.data ≠ [])
    (h : indexOf? checkInDateHeader (splitOnChar ',' (firstLine a.data)) = none ∨
         indexOf? checkInDateHeader (splitOnChar ',' (firstLine b.data)) = none) :
    compareReports pd a b = some 0 := by
  obtain ⟨rowA, restA, hA⟩ : ∃ r rs, dataLines a.data = r :: rs := by
    cases hA : dataLines a.data with
    | nil => exact absurd hA ha
    | cons r rs => exact ⟨r, rs, rfl⟩
  obtain ⟨rowB, restB, hB⟩ : ∃ r rs, dataLines b.data = r :: rs := by
    cases hB : dataLines b.data with
    | nil => exact absurd hB hb
    | cons r rs => exact ⟨r, rs, rfl⟩
  rcases h with h | h
  · cases hidxB : indexOf? checkInDateHeader (splitOnChar ',' (firstLine b.data)) <;>
      simp [compareReports, hA, hB, h, hidxB]
  · cases hidxA : indexOf? checkInDateHeader (splitOnChar ',' (firstLine a.data)) <;>
      simp [compareReports, hA, hB, h, hidxA]

theorem compareReports_nan (pd : List Char → Option Int) (a b : Report)
    (da db : List Char) (hda : reportDate a = some da) (hdb : reportDate b = some db)
    (h : pd da = none ∨ pd db = none) :
    compareReports pd a b = some 0 := by
  obtain ⟨rowA, locA, fA, hrowA, hlocA, hfA, hdA⟩ := reportDate_inv a da hda
  obtain ⟨rowB, locB, fB, hrowB, hlocB, hfB, hdB⟩ := reportDate_inv b db hdb
  subst hdA hdB
  rcases h with h | h
  · cases hpdb : pd (fB.filter (· ≠ '"')) <;>
      · simp only [compareReports, hrowA, hrowB, hlocA, hlocB, hfA, hfB]
        rw [h, hpdb]
  · cases hpda : pd (fA.filter (· ≠ '"')) <;>
      · simp only [compareReports, hrowA, hrowB, hlocA, hlocB, hfA, hfB]
        rw [h, hpda]

theorem compareReports_times (pd : List Char → Option Int) (a b : Report)
    (ta tb : Int) (hta : reportTime pd a = some ta) (htb : reportTime pd b = some tb) :
    compareReports pd a b = some (tb - ta) := by
  obtain ⟨da, hda, hpda⟩ : ∃ da, reportDate a = some da ∧ pd da = some ta := by
    unfold reportTime at hta
    cases hda : reportDate a with
    | none => rw [hda] at hta; simp at hta
    | some da => rw [hda] at hta; exact ⟨da, rfl, hta⟩
  obtain ⟨db, hdb, hpdb⟩ : ∃ db, reportDate b = some db ∧ pd db = some tb := by
    unfold reportTime at htb
    cases hdb : reportDate b with
    | none => rw [hdb] at htb; simp at htb
    | some db => rw [hdb] at htb; exact ⟨db, rfl, htb⟩
  obtain ⟨rowA, locA, fA, hrowA, hlocA, hfA, hdA⟩ := reportDate_inv a da hda
  obtain ⟨rowB, locB, fB, hrowB, hlocB, hfB, hdB⟩ := reportDate_inv b db hdb
  subst hdA hdB
  simp only [compareReports, hrowA, hrowB, hlocA, hlocB, hfA, hfB]
  rw [hpda, hpdb]

theorem compareReports_total (pd : List Char → Option Int) (a b : Report)
    (ha : compareSafe a) (hb : compareSafe b) :
    (compareReports pd a b).isSome := by
  obtain ⟨rowA, restA, hA⟩ : ∃ r rs, dataLines a.data = r :: rs := by
    cases hA : dataLines a.data with
    | nil => exact absurd hA ha.1
    | cons r rs => exact ⟨r, rs, rfl⟩
  obtain ⟨rowB, restB, hB⟩ : ∃ r rs, dataLines b.data = r :: rs := by
    cases hB : dataLines b.data with
    | nil => exact absurd hB hb.1
    | cons r rs => exact ⟨r, rs, rfl⟩
  cases hidxA : indexOf? checkInDateHeader (splitOnChar ',' (firstLine a.data)) with
  | none =>
    cases hidxB : indexOf? checkInDateHeader (splitOnChar ',' (firstLine b.data)) <;>
      simp [compareReports, hA, hB, hidxA, hidxB]
  | some locA =>
    cases hidxB : indexOf? checkInDateHeader (splitOnChar ',' (firstLine b.data)) with
    | none => simp [compareReports, hA, hB, hidxA, hidxB]
    | some locB =>
      have hltA : locA < (splitCSVLine rowA).length := by
        have := ha.2 locA hidxA
        rwa [hA] at this
      have hltB : locB < (splitCSVLine rowB).length := by
        have := hb.2 locB hidxB
        rwa [hB] at this
      have hfA := List.getElem?_eq_getElem hltA
      have hfB := List.getElem?_eq_getElem hltB
      cases hpda : pd (((splitCSVLine rowA)[locA]).filter (· ≠ '"')) <;>
        cases hpdb : pd (((splitCSVLine rowB)[locB]).filter (· ≠ '"')) <;>
          · simp only [compareReports, hA, hB, List.head?_cons, hidxA, hidxB, hfA, hfB]
            rw [hpda, hpdb]
            simp

/-! ## Populating the merged report -/

theorem populateRows_eq (rf hdr : List (List Char)) :
    ∀ (recs : List (List Char)) (acc : List (List Char)),
      populateRows rf hdr acc recs = (translatedRows rf hdr recs).map (acc ++ ·) := by
  intro recs
  induction recs with
  | nil => intro acc; simp [populateRows, translatedRows]
  | cons rec recs ih =>
    intro acc
    by_cases hemp : rec.isEmpty
    · simp [populateRows, translatedRows, hemp, ih]
    · cases htr : translateRecord rf hdr rec with
      | none => simp [populateRows, translatedRows, hemp, htr]
      | some nr =>
        simp only [populateRows, translatedRows, hemp, if_false, htr, ih]
        cases translatedRows rf hdr recs with
        | none => rfl
        | some rows => simp

theorem populateMergedReport_eq (rf : List (List Char)) :
    ∀ (reps : List Report) (acc : List (List Char)),
      populateMergedReport rf acc reps = (allReportsRows rf reps).map (acc ++ ·) := by
  intro reps
  induction reps with
  | nil => intro acc; simp [populateMergedReport, allReportsRows]
  | cons rep reps ih =>
    intro acc
    simp only [populateMergedReport, allReportsRows, populateRows_eq]
    cases hrr : reportRows rf rep with
    | none =>
      rw [show translatedRows rf (splitOnChar ',' (firstLine rep.data)) (dataLines rep.data) =
          none from hrr]
      rfl
    | some rows =>
      rw [show translatedRows rf (splitOnChar ',' (firstLine rep.data)) (dataLines rep.data) =
          some rows from hrr]
      simp only [Option.map_some]
      show populateMergedReport rf (acc ++ rows) reps = _
      rw [ih]
      cases allReportsRows rf reps with
      | none => rfl
      | some rest => simp

/-- Inversion of a successful merge run: the output is the verbatim first
line of the first sorted report followed by the translated rows of all the
sorted reports in order. -/
theorem cmdMerge_inv (entries : List FileEntry) (pd : List Char → Option Int)
    (out : List (List Char)) (h : cmdMerge entries pd = some out) :
    ∃ r0 rest rows, sortReportsByDate pd (inputReportsOf entries) = some (r0 :: rest) ∧
      allReportsRows (splitOnChar ',' (firstLine r0.data)) (r0 :: rest) = some rows ∧
      out = firstLine r0.data :: rows := by
  by_cases hempty : (entries.filter inputFileFilter).isEmpty
  · simp [cmdMerge, hempty] at h
  · cases hs : sortReportsByDate pd (inputReportsOf entries) with
    | none => simp [cmdMerge, hempty, hs] at h
    | some sorted =>
      cases sorted with
      | nil => simp [cmdMerge, hempty, hs] at h
      | cons r0 rest =>
        have hne : ¬(splitOnChar ',' (firstLine r0.data)).isEmpty := by
          cases hsp : splitOnChar ',' (firstLine r0.data) with
          | nil => exact absurd hsp (splitOnChar_ne_nil ',' (firstLine r0.data))
          | cons f fs => simp
        simp only [cmdMerge, hempty, if_false, hs, List.head?_cons, hne,
          Bool.false_eq_true] at h
        rw [populateMergedReport_eq] at h
        cases har : allReportsRows (splitOnChar ',' (firstLine r0.data)) (r0 :: rest) with
        | none => rw [har] at h; simp at h
        | some rows =>
          rw [har] at h
          simp at h
          exact ⟨r0, rest, rows, rfl, har, h.symm⟩

theorem slotsM_append (tm : List (List Char × Nat)) (rec : List (List Char))
    (l1 l2 : List (List Char)) :
    slotsM tm rec (l1 ++ l2) =
      (slotsM tm rec l1).bind (fun a => (slotsM tm rec l2).map (a ++ ·)) := by
  induction l1 with
  | nil =>
    cases h2 : slotsM tm rec l2 <;> simp [slotsM, h2]
  | cons f fs ih =>
    cases hget : mapGet tm f with
    | some loc =>
      cases hrec : rec[loc]? with
      | some field =>
        simp only [List.cons_append, slotsM, hget, hrec, List.append_eq, ih]
        cases h1 : slotsM tm rec fs <;> cases h2 : slotsM tm rec l2 <;> simp [h1, h2]
      | none => simp [slotsM, hget, hrec]
    | none =>
      simp only [List.cons_append, slotsM, hget, List.append_eq, ih]
      cases h1 : slotsM tm rec fs <;> cases h2 : slotsM tm rec l2 <;> simp [h1, h2]

theorem encodeAll_append (a b : List (List Char)) :
    encodeAll (a ++ b) = encodeAll a ++ encodeAll b := by
  simp [encodeAll]

/-! ## The claims -/

/-- C3: for every input line, the CSV line splitter returns exactly the
field sequence produced by the spec's reference left-to-right scan (quote
toggling, the escaped-quote rule, separator commas only outside quotes,
any other character appended, and the last accumulated field appended
unconditionally at end of line, so a trailing comma yields a trailing
empty field).  Both sides are total Lean functions, so no error is ever
raised, even on a line with unbalanced quotes. -/
theorem claim_C3 (line : List Char) : splitCSVLine line = splitCSVLineSpec line :=
  splitCSVAux_eq_spec [] false line

/-- C1, counterexample: a one-report merge whose reference schema has one
field (`Check-In Date`) emits the record `2024-01-01,`, which splits into
two fields, not one — the claimed invariant "exactly `len(referenceSchema)`
comma-separated fields" fails on every emitted record. -/
theorem claim_C1_counterexample :
    cmdMerge [⟨"a.csv".toList, true, "Check-In Date\n2024-01-01".toList⟩] (fun _ => none) =
      some ["Check-In Date".toList, "2024-01-01,".toList] ∧
    (splitCSVLine "2024-01-01,".toList).length ≠
      (splitOnChar ',' "Check-In Date".toList).length := by
  exact ⟨rfl, by decide⟩

/-- C1 (amended): every translated record, split quote-aware on commas,
has exactly `len(referenceSchema) + 1` fields — the extra one being the
trailing empty field produced by the unconditional trailing comma —
provided no parsed field of the source row contains a double-quote
character (a field containing both a quote and, e.g., a comma would
re-split differently, since output fields are not re-escaped). -/
theorem claim_C1_amended (rf hdr : List (List Char)) (rec out : List Char)
    (hout : translateRecord rf hdr rec = some out)
    (hq : ∀ f ∈ splitCSVLine rec, '"' ∉ f) :
    (splitCSVLine out).length = rf.length + 1 := by
  obtain ⟨cs, hcs, hrec⟩ := translateRecord_slots rf hdr rec out hout
  subst hrec
  have hqcs : ∀ c ∈ cs, '"' ∉ c := by
    intro c hc
    rcases slotsM_mem _ _ rf cs hcs c hc with h | h
    · subst h; simp
    · exact hq c h
  rw [splitCSVLine, scan_encodeAll cs hqcs]
  simp [slotsM_length _ _ rf cs hcs]

/-- Witness for C1 (amended): schema `A,B`, row `1,2`, emitted record
`1,2,` — three fields for a two-field schema. -/
theorem claim_C1_amended_witness :
    (splitCSVLine "1,2,".toList).length = (splitOnChar ',' "A,B".toList).length + 1 :=
  claim_C1_amended (splitOnChar ',' "A,B".toList) (splitOnChar ',' "A,B".toList)
    "1,2".toList "1,2,".toList rfl (by decide)

/-- C2, counterexample: the raw row `"a""b"` parses (escaped-quote rule)
to the single field `a"b`, which contains no comma and is therefore
emitted unescaped; the merged record `a"b,` does end with the appended
comma, but re-splitting it quote-awarely yields the single field `ab,` —
not `len(referenceSchema) + 1 = 2` fields and with no trailing empty
field — so "every emitted record carries one trailing empty field beyond
the length of the reference schema" is false as stated. -/
theorem claim_C2_counterexample :
    cmdMerge [⟨"a.csv".toList, true, "Check-In Date\n\"a\"\"b\"".toList⟩] (fun _ => none) =
      some ["Check-In Date".toList, "a\"b,".toList] ∧
    "a\"b,".toList.getLast? = some ',' ∧
    (splitCSVLine "a\"b,".toList).length ≠
      (splitOnChar ',' "Check-In Date".toList).length + 1 ∧
    (splitCSVLine "a\"b,".toList).getLast? ≠ some ([] : List Char) :=
  ⟨rfl, rfl, by decide, by decide⟩

/-- C2 (amended): the translator appends a comma after every field
including the last, so every emitted record ends in a comma and its naive
comma-split ends in an empty piece — unconditionally; and when no parsed
field of the source row contains a double-quote character (fields are
emitted unescaped, so an embedded quote changes the quote-aware re-split,
as the counterexample shows), the record carries exactly one trailing
empty field beyond the reference schema's length. -/
theorem claim_C2_amended (rf hdr : List (List Char)) (rec out : List Char)
    (hout : translateRecord rf hdr rec = some out) (hrf : rf ≠ []) :
    out.getLast? = some ',' ∧
    (splitOnChar ',' out).getLast? = some ([] : List Char) ∧
    ((∀ f ∈ splitCSVLine rec, '"' ∉ f) →
      (splitCSVLine out).length = rf.length + 1 ∧
      (splitCSVLine out).getLast? = some ([] : List Char)) := by
  obtain ⟨cs, hcs, hrec⟩ := translateRecord_slots rf hdr rec out hout
  subst hrec
  have hlen := slotsM_length _ _ rf cs hcs
  have hcsne : cs ≠ [] := by
    intro h
    subst h
    simp at hlen
    exact hrf (List.length_eq_zero.mp hlen.symm)
  obtain ⟨pre, hpre⟩ := encodeAll_ends_comma cs hcsne
  refine ⟨?_, ?_, ?_⟩
  · rw [hpre]; simp
  · rw [hpre, splitOnChar_append_sep]; simp
  · intro hq
    have hqcs : ∀ c ∈ cs, '"' ∉ c := by
      intro c hc
      rcases slotsM_mem _ _ rf cs hcs c hc with h | h
      · subst h; simp
      · exact hq c h
    constructor
    · rw [splitCSVLine, scan_encodeAll cs hqcs]; simp [hlen]
    · rw [splitCSVLine, scan_encodeAll cs hqcs]; simp

/-- Witness for C2 (amended): schema `A,B`, row `1,2`, record `1,2,` —
the unconditional trailing-comma conjuncts hold, and the row is
quote-free, so the record splits into three fields ending in an empty
one. -/
theorem claim_C2_amended_witness :
    "1,2,".toList.getLast? = some ',' ∧
    (splitOnChar ',' "1,2,".toList).getLast? = some ([] : List Char) ∧
    ((∀ f ∈ splitCSVLine "1,2".toList, '"' ∉ f) →
      (splitCSVLine "1,2,".toList).length = (splitOnChar ',' "A,B".toList).length + 1 ∧
      (splitCSVLine "1,2,".toList).getLast? = some ([] : List Char)) :=
  claim_C2_amended (splitOnChar ',' "A,B".toList) (splitOnChar ',' "A,B".toList)
    "1,2".toList "1,2,".toList rfl (by decide)

/-- C8: for every reference field name mapped by the translator (present
in this report's header at index `loc`), the emitted slot for a source
field `f` is `"f"` when `f` contains a comma and `f` itself otherwise —
in both cases the field's own characters (including any embedded quotes)
appear verbatim, with no re-escaping. -/
theorem claim_C8 (rf hdr : List (List Char)) (rec out : List Char) (name : List Char)
    (loc : Nat) (f : List Char) (hname : name ∈ rf)
    (hloc : indexOf? name hdr = some loc)
    (hf : (splitCSVLine rec)[loc]? = some f)
    (hout : translateRecord rf hdr rec = some out) :
    ∃ pre post, out = pre ++ (if ',' ∈ f then '"' :: (f ++ ['"']) else f) ++ ',' :: post := by
  obtain ⟨l1, l2, hrf⟩ := List.append_of_mem hname
  subst hrf
  obtain ⟨cs, hcs, hrec⟩ := translateRecord_slots _ hdr rec out hout
  subst hrec
  rw [slotsM_append] at hcs
  have hget : mapGet (inputFieldTranslationMap hdr (l1 ++ name :: l2)) name = some loc := by
    rw [mapGet_inputFieldTranslationMap]
    simp [hloc]
  cases h1 : slotsM (inputFieldTranslationMap hdr (l1 ++ name :: l2)) (splitCSVLine rec) l1 with
  | none => rw [h1] at hcs; simp at hcs
  | some a =>
    rw [h1] at hcs
    cases h2 : slotsM (inputFieldTranslationMap hdr (l1 ++ name :: l2)) (splitCSVLine rec)
        (name :: l2) with
    | none => rw [h2] at hcs; simp at hcs
    | some b =>
      rw [h2] at hcs
      simp at hcs
      cases h3 : slotsM (inputFieldTranslationMap hdr (l1 ++ name :: l2)) (splitCSVLine rec)
          l2 with
      | none => simp [slotsM, hget, hf, h3] at h2
      | some c =>
        simp [slotsM, hget, hf, h3] at h2
        subst h2
        subst hcs
        refine ⟨encodeAll a, encodeAll c, ?_⟩
        rw [encodeAll_append, encodeAll_cons, encodeField]
        simp

/-- Witness for C8: schema `A`, raw row `"x,y"`, source field `x,y`
containing a comma — the emitted record is `"x,y",`. -/
theorem claim_C8_witness :
    ∃ pre post, "\"x,y\",".toList =
      pre ++ (if ',' ∈ "x,y".toList then '"' :: ("x,y".toList ++ ['"']) else "x,y".toList) ++
        ',' :: post :=
  claim_C8 [ "A".toList ] [ "A".toList ] "\"x,y\"".toList "\"x,y\",".toList
    "A".toList 0 "x,y".toList (by decide) rfl rfl rfl

/-- C5: equal-or-unusable comparisons are non-fatal and order-preserving:
(1) with the recency column missing from either report's header the
comparator returns `some 0` (it does not raise, provided both reports have
a first data row to split); (2) with both date strings extracted but
either failing to parse, the comparator returns `some 0`; (3) a list of
reports all of whose mutual comparisons are `some 0` is left exactly in
its pre-sort order by the (stable) sort. -/
theorem claim_C5 :
    (∀ (pd : List Char → Option Int) (a b : Report),
        dataLines a.data ≠ [] → dataLines b.data ≠ [] →
        (indexOf? checkInDateHeader (splitOnChar ',' (firstLine a.data)) = none ∨
         indexOf? checkInDateHeader (splitOnChar ',' (firstLine b.data)) = none) →
        compareReports pd a b = some 0) ∧
    (∀ (pd : List Char → Option Int) (a b : Report) (da db : List Char),
        reportDate a = some da → reportDate b = some db →
        (pd da = none ∨ pd db = none) → compareReports pd a b = some 0) ∧
    (∀ (pd : List Char → Option Int) (l : List Report),
        (∀ x ∈ l, ∀ y ∈ l, compareReports pd x y = some 0) →
        sortReportsByDate pd l = some l) := by
  refine ⟨compareReports_missing_col, compareReports_nan, ?_⟩
  intro pd l h
  rw [sortReportsByDate]
  have hall := sortFold_all_zero (compareReports pd) l [] ?_
  · simpa using hall
  · intro x hx y hy
    rcases hy with hy | hy
    · simp at hy
    · exact h x hx y hy

/-- Witness for C5: a missing-column pair, an unparseable-date pair, and a
two-report all-unparseable list left in place by the sort. -/
theorem claim_C5_witness :
    compareReports (fun _ => some 0) ⟨"Nope\n1".toList, "a.csv".toList⟩
      ⟨"Nope\n2".toList, "b.csv".toList⟩ = some 0 ∧
    compareReports (fun _ => none) ⟨"Check-In Date\nzzz".toList, "a.csv".toList⟩
      ⟨"Check-In Date\nyyy".toList, "b.csv".toList⟩ = some 0 ∧
    sortReportsByDate (fun _ => none)
      [⟨"Check-In Date\nzzz".toList, "a.csv".toList⟩,
       ⟨"Check-In Date\nyyy".toList, "b.csv".toList⟩] =
      some [⟨"Check-In Date\nzzz".toList, "a.csv".toList⟩,
            ⟨"Check-In Date\nyyy".toList, "b.csv".toList⟩] :=
  ⟨claim_C5.1 _ _ _ (by decide) (by decide) (Or.inl (by decide)),
   claim_C5.2.1 _ _ _ "zzz".toList "yyy".toList rfl rfl (Or.inl rfl),
   claim_C5.2.2 _ _ (by decide)⟩

/-- C10: the comparator is total under the precondition `compareSafe`
(at least two newline-separated lines, and a first-row field at the
report's own recency-column index whenever that index exists) — and the
precondition is needed: a header-only report (no newline), or a report
whose first data row is shorter than its recency-column index, makes the
comparator raise (`none`) rather than return an "equal" result. -/
theorem claim_C10 :
    (∀ (pd : List Char → Option Int) (a b : Report), compareSafe a → compareSafe b →
        (compareReports pd a b).isSome) ∧
    compareReports (fun _ => some 0) ⟨"Check-In Date".toList, "a.csv".toList⟩
      ⟨"Check-In Date\n2024-01-01".toList, "b.csv".toList⟩ = none ∧
    compareReports (fun _ => some 0) ⟨"A,Check-In Date\nx".toList, "c.csv".toList⟩
      ⟨"Check-In Date\n2024-01-01".toList, "b.csv".toList⟩ = none :=
  ⟨compareReports_total, rfl, rfl⟩

/-- Witness for C10: two well-formed reports compare successfully. -/
theorem claim_C10_witness :
    (compareReports (fun _ => some 5)
      ⟨"Check-In Date\n2024-01-01".toList, "a.csv".toList⟩
      ⟨"Check-In Date\n2024-02-02".toList, "b.csv".toList⟩).isSome :=
  claim_C10.1 _ _ _
    ⟨by decide, fun loc hl => by
      have h0 : (some 0 : Option Nat) = some loc := hl
      cases h0
      decide⟩
    ⟨by decide, fun loc hl => by
      have h0 : (some 0 : Option Nat) = some loc := hl
      cases h0
      decide⟩

/-- C6, counterexample: the file `xMERGED.csv` is a regular file, contains
`.csv`, is not *equal* to the output filename `MERGED.csv`, and has a
valid header — by the claim it should become an input report, but the
code's exclusion is a substring test (`name.includes(OUTFILE)`), so the
loader selects no report from it. -/
theorem claim_C6_counterexample :
    ((⟨"xMERGED.csv".toList, true, "Check-In Date\n2024-01-01".toList⟩ : FileEntry).isFile
        = true ∧
     containsSub ".csv".toList "xMERGED.csv".toList = true ∧
     "xMERGED.csv".toList ≠ OUTFILE ∧
     hasValidHeader "Check-In Date\n2024-01-01".toList = true) ∧
    inputReportsOf [⟨"xMERGED.csv".toList, true, "Check-In Date\n2024-01-01".toList⟩] = [] :=
  ⟨⟨rfl, rfl, by decide, rfl⟩, rfl⟩

/-- C6 (amended): a directory entry becomes an input report iff it is a
regular file whose name contains the substring `.csv`, whose name does not
*contain the substring* `MERGED.csv` (the code tests substring containment
via `String.prototype.includes`, not equality with the output filename),
and whose first line, split on commas, contains the exact token
`Check-In Date`; an entry failing only the header test is skipped without
failing the run (the loader is a total function on the listing). -/
theorem claim_C6_amended (entries : List FileEntry) (r : Report) :
    r ∈ inputReportsOf entries ↔
      ∃ e ∈ entries, e.isFile = true ∧ containsSub ".csv".toList e.name = true ∧
        containsSub OUTFILE e.name = false ∧ hasValidHeader e.content = true ∧
        r = { data := e.content, pathname := e.name } := by
  simp only [inputReportsOf, List.mem_filter, List.mem_map, inputFileFilter]
  constructor
  · rintro ⟨⟨e, ⟨hmem, hfil⟩, rfl⟩, hvalid⟩
    simp only [Bool.and_eq_true, Bool.not_eq_true'] at hfil
    exact ⟨e, hmem, hfil.1.1, hfil.1.2, hfil.2, hvalid, rfl⟩
  · rintro ⟨e, hmem, h1, h2, h3, h4, rfl⟩
    refine ⟨⟨e, ⟨hmem, ?_⟩, rfl⟩, h4⟩
    have h2' : containsSub ['.', 'c', 's', 'v'] e.name = true := h2
    simp [h1, h2', h3]

/-- C7: if no qualifying report survives loading (in particular, an empty
or `.csv`-free target directory), the run aborts with exit code 1 and no
output is written; and the spec's second failure condition — an empty
derived reference header field list — is unreachable, because a split on
commas always yields at least one field. -/
theorem claim_C7 :
    (∀ (entries : List FileEntry) (pd : List Char → Option Int),
        inputReportsOf entries = [] →
        cmdMerge entries pd = none ∧ mergeExitCode entries pd = 1 ∧
        writtenOutput entries pd = none) ∧
    (∀ data : List Char, splitOnChar ',' data ≠ []) := by
  constructor
  · intro entries pd h
    have hcm : cmdMerge entries pd = none := by
      by_cases hempty : (entries.filter inputFileFilter).isEmpty
      · simp [cmdMerge, hempty]
      · simp [cmdMerge, hempty, h, sortReportsByDate, sortFold]
    refine ⟨hcm, ?_, ?_⟩
    · simp [mergeExitCode, hcm]
    · simp [writtenOutput, hcm]
  · exact fun data => splitOnChar_ne_nil ',' data

/-- Witness for C7: the empty directory listing. -/
theorem claim_C7_witness :
    cmdMerge [] (fun _ => none) = none ∧ mergeExitCode [] (fun _ => none) = 1 ∧
      writtenOutput [] (fun _ => none) = none :=
  claim_C7.1 [] (fun _ => none) rfl

/-- C9: a successful merge output is exactly the reference header line
(the verbatim first line of the first report in sorted order) followed by
the translated rows of every qualifying report, reports in the order
produced by the recency sort and rows within each report in their
original order with truly empty lines skipped (`allReportsRows` /
`translatedRows` state exactly that shape). -/
theorem claim_C9 (entries : List FileEntry) (pd : List Char → Option Int)
    (out : List (List Char)) (h : cmdMerge entries pd = some out) :
    ∃ r0 rest rows, sortReportsByDate pd (inputReportsOf entries) = some (r0 :: rest) ∧
      allReportsRows (splitOnChar ',' (firstLine r0.data)) (r0 :: rest) = some rows ∧
      out = firstLine r0.data :: rows :=
  cmdMerge_inv entries pd out h

/-- Witness for C9: the spec's two-report scenario (`a.csv` and `b.csv`,
`b.csv` more recent). -/
theorem claim_C9_witness :
    ∃ r0 rest rows,
      sortReportsByDate
        (fun s => if s = "2024-01-01".toList then some 100
          else if s = "2024-06-01".toList then some 200 else none)
        (inputReportsOf
          [⟨"a.csv".toList, true, "Net ID,Check-In Date\n1,2024-01-01".toList⟩,
           ⟨"b.csv".toList, true,
             "Net ID,Check-In Date,Name\n2,2024-06-01,\"Smith, J\"".toList⟩]) =
        some (r0 :: rest) ∧
      allReportsRows (splitOnChar ',' (firstLine r0.data)) (r0 :: rest) = some rows ∧
      ["Net ID,Check-In Date,Name".toList, "2,2024-06-01,\"Smith, J\",".toList,
       "1,2024-01-01,,".toList] = firstLine r0.data :: rows :=
  claim_C9 _ _ _ rfl

/-- C4: whenever every qualifying report's first-row date parses and `r`
is the strictly most recent of them, a successful merge's first output
line is byte-identical to the verbatim first line of `r`'s raw text
(`firstLine r.data` — taken from the raw text after sorting, not rebuilt
from parsed fields). -/
theorem claim_C4 (entries : List FileEntry) (pd : List Char → Option Int)
    (r : Report) (out : List (List Char))
    (hr : r ∈ inputReportsOf entries)
    (ht : ∀ x ∈ inputReportsOf entries, (reportTime pd x).isSome)
    (hmax : ∀ y ∈ inputReportsOf entries, y ≠ r → timeKey pd y < timeKey pd r)
    (hout : cmdMerge entries pd = some out) :
    out.head? = some (firstLine r.data) := by
  obtain ⟨r0, rest, rows, hs, har, hout'⟩ := cmdMerge_inv entries pd out hout
  subst hout'
  have hpairs : ∀ x ∈ inputReportsOf entries, ∀ y,
      y ∈ ([] : List Report) ∨ y ∈ inputReportsOf entries →
      compareReports pd x y = some (timeKey pd y - timeKey pd x) := by
    intro x hx y hy
    rcases hy with hy | hy
    · simp at hy
    · obtain ⟨tx, htx⟩ := Option.isSome_iff_exists.mp (ht x hx)
      obtain ⟨ty, hty⟩ := Option.isSome_iff_exists.mp (ht y hy)
      rw [compareReports_times pd x y tx ty htx hty]
      simp [timeKey, htx, hty]
  obtain ⟨m, hm, hperm, hsorted⟩ :=
    sortFold_key (compareReports pd) (timeKey pd) (inputReportsOf entries) [] hpairs
      List.Pairwise.nil
  rw [sortReportsByDate] at hs
  rw [hs] at hm
  have hm' : r0 :: rest = m := Option.some.inj hm
  subst hm'
  have hr0mem : r0 ∈ inputReportsOf entries := by
    have h0 : r0 ∈ r0 :: rest := List.mem_cons_self _ _
    have h1 := hperm.mem_iff.mp h0
    simpa using h1
  have hrmem : r ∈ r0 :: rest := hperm.mem_iff.mpr (by simpa using hr)
  have hle : timeKey pd r ≤ timeKey pd r0 :=
    sortedDesc_head_max (timeKey pd) r0 rest hsorted r hrmem
  by_cases heq : r0 = r
  · subst heq
    rfl
  · exfalso
    have hlt := hmax r0 hr0mem heq
    omega

/-- Witness for C4: in the spec's two-report scenario, the output header
is the verbatim header line of `b.csv`, whose first-row date is strictly
most recent. -/
theorem claim_C4_witness :
    (["Net ID,Check-In Date,Name".toList, "2,2024-06-01,\"Smith, J\",".toList,
      "1,2024-01-01,,".toList] : List (List Char)).head? =
      some (firstLine "Net ID,Check-In Date,Name\n2,2024-06-01,\"Smith, J\"".toList) :=
  claim_C4
    [⟨"a.csv".toList, true, "Net ID,Check-In Date\n1,2024-01-01".toList⟩,
     ⟨"b.csv".toList, true,
       "Net ID,Check-In Date,Name\n2,2024-06-01,\"Smith, J\"".toList⟩]
    (fun s => if s = "2024-01-01".toList then some 100
      else if s = "2024-06-01".toList then some 200 else none)
    ⟨"Net ID,Check-In Date,Name\n2,2024-06-01,\"Smith, J\"".toList, "b.csv".toList⟩
    ["Net ID,Check-In Date,Name".toList, "2,2024-06-01,\"Smith, J\",".toList,
     "1,2024-01-01,,".toList]
    (by decide) (by decide) (by decide) rfl

end Reptool
